import Mathlib

/-!
# Verification of the simplejob worker-fork orchestrator (src/job.ts)

Shallow embedding of the parts of `SimpleJob` (src/job.ts) that the
specification's claims are about:

* `mergeResult` (job.ts:696-711) — the per-key result aggregation, embedded
  over a model `JVal` of the JavaScript values that occur in result
  aggregates (numbers, strings, arrays, nested plain objects).  JavaScript
  truthiness and the `+=` coercions that the code can perform are embedded
  explicitly.  Recursion into nested objects is paid for with a structural
  fuel argument (`jsMergeStep`); the size of the incoming aggregate is
  always sufficient fuel, which is proved (`jsMergeStep_no_fuelOut`), so the
  fuel is invisible in the top-level `mergeResult?`.
* the batch-claim / dispatch loop of `forkOneChild`'s message handler
  (job.ts:625-671) and the child-side handler `initChildMessageHandler`
  (job.ts:548-594), as executable step functions;
* a pool model of several channels sharing the instance field `itemsOffset`
  (job.ts:80, 650-652), each claim being atomic (the documented
  precondition that no callback yields between reading and advancing the
  offset);
* the promise settlement logic of `forkOneChild`'s `error`/`exit` listeners
  (job.ts:673-682) and of `Promise.all` in `forkChildren` (job.ts:685-693),
  together with the worker-count computation (job.ts:686-687).

Modelled subset: result values are integers (JS numbers used as counters),
strings, arrays and plain objects; exotic JS cases that no claim touches
(merging an object into an array target, property assignment on a primitive
in strict mode) are modelled as merge errors (`MRes.thrown`).
-/

namespace SimpleJobModel

mutual
/-- Model of a JavaScript value stored in a `JobResult` aggregate.
Numbers are modelled as `Int` (the code uses them as counters). -/
inductive JVal : Type where
  | num (n : Int)
  | str (s : String)
  | arr (elems : JArr)
  | obj (fields : JObj)

/-- A JS array of `JVal`s (a specialised list, so that all recursion over
values is plain structural recursion). -/
inductive JArr : Type where
  | nil
  | cons (hd : JVal) (tl : JArr)

/-- A JS plain object: string keys bound to values, in property-insertion
order (JS objects preserve it). -/
inductive JObj : Type where
  | nil
  | cons (key : String) (v : JVal) (tl : JObj)
end

/-- `JobResult` (job.types): the string-keyed result aggregate. -/
abbrev JobResult := JObj

mutual
/-- Structural size of a value, used as merge fuel. -/
def jsizeV : JVal → Nat
  | .num _ => 1
  | .str _ => 1
  | .arr xs => 1 + jsizeA xs
  | .obj fs => 1 + jsizeO fs

def jsizeA : JArr → Nat
  | .nil => 1
  | .cons x xs => 1 + jsizeV x + jsizeA xs

def jsizeO : JObj → Nat
  | .nil => 1
  | .cons _ v fs => 1 + jsizeV v + jsizeO fs
end

/-- JavaScript truthiness of a `JVal`: `0` and `""` are falsy, every array
and object is truthy.  (NaN is outside the modelled subset.) -/
def truthy : JVal → Bool
  | .num n => n != 0
  | .str s => s != ""
  | .arr _ => true
  | .obj _ => true

/-- `result[key]` — property read. -/
def lookupJ : JObj → String → Option JVal
  | .nil, _ => none
  | .cons k' v' rest, k => if k' = k then some v' else lookupJ rest k

/-- `result[key] = v` — JS property write: an existing key keeps its
position, a new key is appended at the end. -/
def setJ : JObj → String → JVal → JObj
  | .nil, k, v => .cons k v .nil
  | .cons k' v' rest, k, v =>
    if k' = k then .cons k' v rest else .cons k' v' (setJ rest k v)

/-- `xs.push(...ys)` — array append. -/
def pushA : JArr → JArr → JArr
  | .nil, ys => ys
  | .cons x xs, ys => .cons x (pushA xs ys)

mutual
/-- JS string coercion of a value (used by `+=` on non-numeric targets):
arrays join their elements with `","`, objects print `[object Object]`. -/
def jsToString : JVal → String
  | .num n => toString n
  | .str s => s
  | .arr xs => jsToStringA xs
  | .obj _ => "[object Object]"

def jsToStringA : JArr → String
  | .nil => ""
  | .cons x .nil => jsToString x
  | .cons x (.cons y ys) => jsToString x ++ "," ++ jsToStringA (.cons y ys)
end

/-- `result[key] += n` for a truthy numeric `n` (job.ts:701): numeric add on
a numeric target, JS string concatenation on any other target. -/
def jsAdd (tv : JVal) (n : Int) : JVal :=
  match tv with
  | .num m => .num (m + n)
  | tv => .str (jsToString tv ++ toString n)

/-- Outcome of a (partial) run of `mergeResult`: a value, a thrown JS
exception (e.g. `push` on a non-array), or fuel exhaustion (proved
unreachable for `jsizeO`-sized fuel). -/
inductive MRes : Type where
  | ok (r : JobResult)
  | thrown
  | fuelOut

/-- The body of one iteration of the `Object.keys(newResult).forEach`
loop of `mergeResult` (job.ts:697-709), for the key `k` bound to the
incoming value `nv`, the source's chain of `if`/`else if` in source order:

* `!result[key]` → `result[key] = newResult[key]`;
* incoming truthy number → `result[key] += newResult[key]`;
* incoming array → `result[key].push(...newResult[key])` (throws unless the
  target value is an array);
* incoming (truthy) object → recursive merge (through `nested`, supplied by
  `jsMergeStep`) when the target value is an object; merging a non-empty
  object into a primitive target throws (strict-mode property write on a
  primitive), an empty one returns the target unchanged;
* incoming falsy → `result[key] = newResult` (the **whole** incoming
  aggregate — verbatim from job.ts:707);
* anything else (a truthy string into a truthy target) matches no branch
  and leaves the target unchanged. -/
def mergeBranch (res whole : JObj) (k : String) (nv : JVal)
    (nested : JObj → JObj → MRes) : MRes :=
  match lookupJ res k with
  | none => .ok (setJ res k nv)
  | some tv =>
    if truthy tv = false then .ok (setJ res k nv)
    else
      match nv with
      | .num n =>
        if n != 0 then .ok (setJ res k (jsAdd tv n))
        else .ok (setJ res k (.obj whole))
      | .arr xs =>
        match tv with
        | .arr ys => .ok (setJ res k (.arr (pushA ys xs)))
        | _ => .thrown
      | .obj fs =>
        match tv with
        | .obj tfs =>
          match nested tfs fs with
          | .ok r => .ok (setJ res k (.obj r))
          | .thrown => .thrown
          | .fuelOut => .fuelOut
        | _ =>
          match fs with
          | .nil => .ok (setJ res k tv)
          | _ => .thrown
      | .str s =>
        if s = "" then .ok (setJ res k (.obj whole)) else .ok res

/-- One pass of `mergeResult(result, newResult)` (job.ts:696-711) over the
still-unprocessed keys `pending` of `whole = newResult`, in source order;
the structural fuel only pays for recursion into nested objects and for the
key iteration, and any fuel `≥ jsizeO pending` gives the same answer
(`jsMergeStep_fuel_irrel`). -/
def jsMergeStep : Nat → JobResult → JobResult → JObj → MRes
  | 0, _, _, _ => .fuelOut
  | _ + 1, res, _, .nil => .ok res
  | f + 1, res, whole, .cons k nv rest =>
    match mergeBranch res whole k nv (fun tfs fs => jsMergeStep f tfs fs fs) with
    | .ok res' => jsMergeStep f res' whole rest
    | e => e

/-- `mergeResult(result, newResult)` (job.ts:696-711): `none` models a
thrown exception. -/
def mergeResult? (res newR : JobResult) : Option JobResult :=
  match jsMergeStep (jsizeO newR) res newR newR with
  | .ok r => some r
  | _ => none

theorem jsizeV_pos (v : JVal) : 1 ≤ jsizeV v := by
  cases v <;> simp only [jsizeV] <;> omega

theorem jsizeO_pos (o : JObj) : 1 ≤ jsizeO o := by
  cases o <;> simp only [jsizeO] <;> omega

theorem mergeBranch_congr (res whole : JObj) (k : String) (nv : JVal)
    (n1 n2 : JObj → JObj → MRes)
    (h : ∀ tfs fs, nv = .obj fs → n1 tfs fs = n2 tfs fs) :
    mergeBranch res whole k nv n1 = mergeBranch res whole k nv n2 := by
  unfold mergeBranch
  cases hl : lookupJ res k with
  | none => rfl
  | some tv =>
    cases htv : truthy tv with
    | false => simp [htv]
    | true =>
      cases nv with
      | num n => simp [htv]
      | str s => simp [htv]
      | arr xs => simp [htv]
      | obj fs =>
        cases tv with
        | obj tfs => simp [htv, h tfs fs rfl]
        | num m => simp [htv]
        | str s => simp [htv]
        | arr ys => simp [htv]

theorem jsMergeStep_fuel_irrel :
    ∀ (f f' : Nat) (res whole : JobResult) (pending : JObj),
      jsizeO pending ≤ f → jsizeO pending ≤ f' →
      jsMergeStep f res whole pending = jsMergeStep f' res whole pending := by
  intro f
  induction f with
  | zero =>
    intro f' res whole pending h _
    exact absurd (le_trans (jsizeO_pos pending) h) (by omega)
  | succ fn ih =>
    intro f' res whole pending h h'
    match f', pending with
    | 0, pending =>
      exact absurd (le_trans (jsizeO_pos pending) h') (by omega)
    | fn' + 1, .nil => rfl
    | fn' + 1, .cons k nv rest =>
      have hrest : jsizeO rest ≤ fn ∧ jsizeO rest ≤ fn' := by
        have hv := jsizeV_pos nv
        simp only [jsizeO] at h h'
        omega
      have hbr : mergeBranch res whole k nv (fun tfs fs => jsMergeStep fn tfs fs fs)
          = mergeBranch res whole k nv (fun tfs fs => jsMergeStep fn' tfs fs fs) := by
        refine mergeBranch_congr _ _ _ _ _ _ (fun tfs fs hfs => ?_)
        have hfs1 : jsizeO fs ≤ fn ∧ jsizeO fs ≤ fn' := by
          subst hfs
          simp only [jsizeO, jsizeV] at h h'
          omega
        exact ih fn' tfs fs fs hfs1.1 hfs1.2
      simp only [jsMergeStep]
      rw [hbr]
      cases hone : mergeBranch res whole k nv (fun tfs fs => jsMergeStep fn' tfs fs fs) with
      | ok res1 => exact ih fn' res1 whole rest hrest.1 hrest.2
      | thrown => rfl
      | fuelOut => rfl

/-- The keys of an aggregate, in property order. -/
def keysO : JObj → List String
  | .nil => []
  | .cons k _ rest => k :: keysO rest

theorem lookupJ_eq_none_iff : ∀ (res : JObj) (k : String),
    lookupJ res k = none ↔ k ∉ keysO res
  | .nil, k => by simp [lookupJ, keysO]
  | .cons k' v' rest, k => by
    by_cases hk : k' = k
    · subst hk
      simp [lookupJ, keysO]
    · simp [lookupJ, keysO, hk, lookupJ_eq_none_iff rest k, Ne.symm hk]

theorem lookupJ_setJ_self : ∀ (res : JObj) (k : String) (v : JVal),
    lookupJ (setJ res k v) k = some v
  | .nil, k, v => by simp [setJ, lookupJ]
  | .cons k' v' rest, k, v => by
    by_cases hk : k' = k
    · subst hk
      simp [setJ, lookupJ]
    · simp [setJ, lookupJ, hk, lookupJ_setJ_self rest k v]

theorem lookupJ_setJ_ne : ∀ (res : JObj) (k x : String) (v : JVal), x ≠ k →
    lookupJ (setJ res k v) x = lookupJ res x
  | .nil, k, x, v, hx => by simp [setJ, lookupJ, Ne.symm hx]
  | .cons k' v' rest, k, x, v, hx => by
    by_cases hk : k' = k
    · subst hk
      simp [setJ, lookupJ, Ne.symm hx]
    · simp only [setJ, if_neg hk, lookupJ]
      by_cases hkx : k' = x
      · simp [hkx]
      · simp [hkx, lookupJ_setJ_ne rest k x v hx]

theorem keysO_setJ_mem : ∀ (res : JObj) (k : String) (v : JVal), k ∈ keysO res →
    keysO (setJ res k v) = keysO res
  | .nil, k, v, h => by simp [keysO] at h
  | .cons k' v' rest, k, v, h => by
    by_cases hk : k' = k
    · subst hk
      simp [setJ, keysO]
    · simp only [keysO, List.mem_cons] at h
      rcases h with h | h
      · exact absurd h.symm hk
      · simp [setJ, keysO, hk, keysO_setJ_mem rest k v h]

theorem keysO_setJ_not_mem : ∀ (res : JObj) (k : String) (v : JVal), k ∉ keysO res →
    keysO (setJ res k v) = keysO res ++ [k]
  | .nil, k, v, _ => by simp [setJ, keysO]
  | .cons k' v' rest, k, v, h => by
    simp only [keysO, List.mem_cons] at h
    push_neg at h
    simp [setJ, keysO, Ne.symm h.1, keysO_setJ_not_mem rest k v h.2]

/-- The value the (amended) specification's per-key rule assigns to one
merged key: `tv?` is the target's binding for the key before the merge,
`nv` the incoming value bound to that key and `whole` the whole incoming
aggregate; `none` models a thrown merge error. -/
def specMergeValue (whole : JobResult) (tv? : Option JVal) (nv : JVal) : Option JVal :=
  match tv? with
  | none => some nv
  | some tv =>
    if truthy tv = false then some nv
    else
      match nv with
      | .num n => if n != 0 then some (jsAdd tv n) else some (.obj whole)
      | .str s => if s = "" then some (.obj whole) else some tv
      | .arr xs =>
        match tv with
        | .arr ys => some (.arr (pushA ys xs))
        | _ => none
      | .obj fs =>
        match tv with
        | .obj tfs => (mergeResult? tfs fs).map JVal.obj
        | _ => match fs with | .nil => some tv | _ => none

theorem mergeBranch_ok_shape (res whole : JObj) (k : String) (nv : JVal)
    (nested : JObj → JObj → MRes) (res1 : JobResult)
    (hone : mergeBranch res whole k nv nested = .ok res1) :
    res1 = res ∨ ∃ v, res1 = setJ res k v := by
  unfold mergeBranch at hone
  cases hl : lookupJ res k with
  | none =>
    simp only [hl] at hone
    injection hone with h
    exact Or.inr ⟨_, h.symm⟩
  | some tv =>
    simp only [hl] at hone
    cases htv : truthy tv with
    | false =>
      simp [htv] at hone
      exact Or.inr ⟨_, hone.symm⟩
    | true =>
      simp only [htv, Bool.true_eq_false, if_false] at hone
      cases nv with
      | num n =>
        by_cases hn : (n != 0) = true
        · simp [hn] at hone
          exact Or.inr ⟨_, hone.symm⟩
        · simp [hn] at hone
          exact Or.inr ⟨_, hone.symm⟩
      | str s =>
        by_cases hs : s = ""
        · simp [hs] at hone
          exact Or.inr ⟨_, hone.symm⟩
        · simp [hs] at hone
          exact Or.inl hone.symm
      | arr xs =>
        cases tv with
        | arr ys =>
          simp at hone
          exact Or.inr ⟨_, hone.symm⟩
        | num m => simp at hone
        | str t => simp at hone
        | obj tfs => simp at hone
      | obj fs =>
        cases tv with
        | obj tfs =>
          cases hnested : nested tfs fs with
          | ok r =>
            simp [hnested] at hone
            exact Or.inr ⟨_, hone.symm⟩
          | thrown => simp [hnested] at hone
          | fuelOut => simp [hnested] at hone
        | num m =>
          cases fs with
          | nil =>
            simp at hone
            exact Or.inr ⟨_, hone.symm⟩
          | cons k2 v2 rest2 => simp at hone
        | str t =>
          cases fs with
          | nil =>
            simp at hone
            exact Or.inr ⟨_, hone.symm⟩
          | cons k2 v2 rest2 => simp at hone
        | arr ys =>
          cases fs with
          | nil =>
            simp at hone
            exact Or.inr ⟨_, hone.symm⟩
          | cons k2 v2 rest2 => simp at hone

theorem mergeBranch_ok_value (res whole : JobResult) (k : String) (nv : JVal)
    (f : Nat) (res1 : JobResult)
    (hf : ∀ fs, nv = .obj fs → jsizeO fs ≤ f)
    (hone : mergeBranch res whole k nv (fun tfs fs => jsMergeStep f tfs fs fs) = .ok res1) :
    lookupJ res1 k = specMergeValue whole (lookupJ res k) nv := by
  unfold mergeBranch at hone
  cases hl : lookupJ res k with
  | none =>
    simp only [hl] at hone
    injection hone with h
    simp [← h, lookupJ_setJ_self, specMergeValue]
  | some tv =>
    simp only [hl] at hone
    cases htv : truthy tv with
    | false =>
      simp [htv] at hone
      simp [← hone, lookupJ_setJ_self, specMergeValue, htv]
    | true =>
      simp only [htv, Bool.true_eq_false, if_false] at hone
      cases nv with
      | num n =>
        by_cases hn : (n != 0) = true
        · simp [hn] at hone
          simp [← hone, lookupJ_setJ_self, specMergeValue, htv, hn]
        · simp [hn] at hone
          simp [← hone, lookupJ_setJ_self, specMergeValue, htv, hn]
      | str s =>
        by_cases hs : s = ""
        · simp [hs] at hone
          simp [← hone, lookupJ_setJ_self, specMergeValue, htv, hs]
        · simp [hs] at hone
          simp [← hone, hl, specMergeValue, htv, hs]
      | arr xs =>
        cases tv with
        | arr ys =>
          simp at hone
          simp [← hone, lookupJ_setJ_self, specMergeValue, htv]
        | num m => simp at hone
        | str t => simp at hone
        | obj tfs => simp at hone
      | obj fs =>
        cases tv with
        | obj tfs =>
          cases hnested : jsMergeStep f tfs fs fs with
          | ok r =>
            simp [hnested] at hone
            have hmr : mergeResult? tfs fs = some r := by
              unfold mergeResult?
              rw [jsMergeStep_fuel_irrel (jsizeO fs) f tfs fs fs le_rfl (hf fs rfl), hnested]
            simp [← hone, lookupJ_setJ_self, specMergeValue, htv, hmr]
          | thrown => simp [hnested] at hone
          | fuelOut => simp [hnested] at hone
        | num m =>
          cases fs with
          | nil =>
            simp at hone
            simp [← hone, lookupJ_setJ_self, specMergeValue, htv]
          | cons k2 v2 rest2 => simp at hone
        | str t =>
          cases fs with
          | nil =>
            simp at hone
            simp [← hone, lookupJ_setJ_self, specMergeValue, htv]
          | cons k2 v2 rest2 => simp at hone
        | arr ys =>
          cases fs with
          | nil =>
            simp at hone
            simp [← hone, lookupJ_setJ_self, specMergeValue, htv]
          | cons k2 v2 rest2 => simp at hone

theorem jsMergeStep_lookup_preserved :
    ∀ (pending : JObj) (f : Nat) (res whole out : JobResult) (k : String),
      k ∉ keysO pending → jsMergeStep f res whole pending = .ok out →
      lookupJ out k = lookupJ res k
  | .nil, f, res, whole, out, k, _, hok => by
    cases f with
    | zero => exact absurd hok (fun hh => nomatch hh)
    | succ fn =>
      injection hok with h
      rw [h]
  | .cons k' nv' rest, f, res, whole, out, k, hk, hok => by
    simp only [keysO, List.mem_cons] at hk
    push_neg at hk
    cases f with
    | zero => exact absurd hok (fun hh => nomatch hh)
    | succ fn =>
      simp only [jsMergeStep] at hok
      cases hone : mergeBranch res whole k' nv' (fun tfs fs => jsMergeStep fn tfs fs fs) with
      | ok res1 =>
        rw [hone] at hok
        have hpres : lookupJ res1 k = lookupJ res k := by
          rcases mergeBranch_ok_shape res whole k' nv' _ res1 hone with h | ⟨v, h⟩
          · rw [h]
          · rw [h, lookupJ_setJ_ne res k' k v hk.1]
        rw [jsMergeStep_lookup_preserved rest fn res1 whole out k hk.2 hok, hpres]
      | thrown =>
        rw [hone] at hok
        exact absurd hok (fun hh => nomatch hh)
      | fuelOut =>
        rw [hone] at hok
        exact absurd hok (fun hh => nomatch hh)

theorem jsMergeStep_per_key :
    ∀ (pending : JObj) (f : Nat) (res whole out : JobResult) (k : String) (nv : JVal),
      jsizeO pending ≤ f → (keysO pending).Nodup → lookupJ pending k = some nv →
      jsMergeStep f res whole pending = .ok out →
      lookupJ out k = specMergeValue whole (lookupJ res k) nv
  | .nil, _, _, _, _, _, _, _, _, hmem, _ => absurd hmem (fun hh => nomatch hh)
  | .cons k' nv' rest, f, res, whole, out, k, nv, hfuel, hnodup, hmem, hok => by
    cases f with
    | zero => exact absurd hok (fun hh => nomatch hh)
    | succ fn =>
      simp only [jsMergeStep] at hok
      cases hone : mergeBranch res whole k' nv' (fun tfs fs => jsMergeStep fn tfs fs fs) with
      | ok res1 =>
        rw [hone] at hok
        by_cases hk : k' = k
        · subst hk
          have hnv : nv' = nv := by
            simp only [lookupJ, if_pos rfl] at hmem
            injection hmem
          subst hnv
          have hknotin : k' ∉ keysO rest := by
            simp only [keysO, List.nodup_cons] at hnodup
            exact hnodup.1
          have hfs : ∀ fs, nv' = .obj fs → jsizeO fs ≤ fn := by
            intro fs hfs
            subst hfs
            simp only [jsizeO, jsizeV] at hfuel
            omega
          rw [jsMergeStep_lookup_preserved rest fn res1 whole out k' hknotin hok]
          exact mergeBranch_ok_value res whole k' nv' fn res1 hfs hone
        · have hmem' : lookupJ rest k = some nv := by
            simp only [lookupJ, if_neg hk] at hmem
            exact hmem
          have hfuel' : jsizeO rest ≤ fn := by
            have := jsizeV_pos nv'
            simp only [jsizeO] at hfuel
            omega
          have hnodup' : (keysO rest).Nodup := by
            simp only [keysO, List.nodup_cons] at hnodup
            exact hnodup.2
          have hpres : lookupJ res1 k = lookupJ res k := by
            rcases mergeBranch_ok_shape res whole k' nv' _ res1 hone with h | ⟨v, h⟩
            · rw [h]
            · rw [h, lookupJ_setJ_ne res k' k v (Ne.symm hk)]
          rw [jsMergeStep_per_key rest fn res1 whole out k nv hfuel' hnodup' hmem' hok, hpres]
      | thrown =>
        rw [hone] at hok
        exact absurd hok (fun hh => nomatch hh)
      | fuelOut =>
        rw [hone] at hok
        exact absurd hok (fun hh => nomatch hh)

/-- A value that is a strictly positive number (a "truthy counter"). -/
def isPosNum : JVal → Bool
  | .num n => decide (0 < n)
  | _ => false

/-- Every binding of the aggregate is a strictly positive number. -/
def allPosB : JObj → Bool
  | .nil => true
  | .cons _ v rest => isPosNum v && allPosB rest

/-- The numeric value bound to `k`, `0` when the key is absent or bound to a
non-number. -/
def numAt (r : JObj) (k : String) : Int :=
  match lookupJ r k with
  | some (.num n) => n
  | _ => 0

theorem isPosNum_elim (v : JVal) (h : isPosNum v = true) :
    ∃ n : Int, v = .num n ∧ 0 < n := by
  cases v with
  | num n => exact ⟨n, rfl, by simpa [isPosNum] using h⟩
  | str s => exact absurd h (by simp [isPosNum])
  | arr xs => exact absurd h (by simp [isPosNum])
  | obj fs => exact absurd h (by simp [isPosNum])

theorem allPosB_setJ : ∀ (res : JObj) (k : String) (v : JVal),
    allPosB res = true → isPosNum v = true → allPosB (setJ res k v) = true
  | .nil, k, v, _, hv => by simp [setJ, allPosB, hv]
  | .cons k' v' rest, k, v, hres, hv => by
    simp only [allPosB, Bool.and_eq_true] at hres
    by_cases hk : k' = k
    · subst hk
      simp [setJ, allPosB, hv, hres.2]
    · simp [setJ, allPosB, hk, hres.1, allPosB_setJ rest k v hres.2 hv]

theorem lookupJ_isPos : ∀ (res : JObj) (k : String) (tv : JVal),
    allPosB res = true → lookupJ res k = some tv → isPosNum tv = true
  | .nil, _, _, _, hl => absurd hl (fun hh => nomatch hh)
  | .cons k' v' rest, k, tv, hres, hl => by
    simp only [allPosB, Bool.and_eq_true] at hres
    by_cases hk : k' = k
    · subst hk
      simp only [lookupJ, if_pos rfl] at hl
      injection hl with h
      rw [← h]
      exact hres.1
    · simp only [lookupJ, if_neg hk] at hl
      exact lookupJ_isPos rest k tv hres.2 hl

theorem numAt_setJ_num (res : JObj) (k : String) (n : Int) :
    numAt (setJ res k (.num n)) k = n := by
  simp [numAt, lookupJ_setJ_self]

theorem numAt_setJ_ne (res : JObj) (k x : String) (v : JVal) (hx : x ≠ k) :
    numAt (setJ res k v) x = numAt res x := by
  simp [numAt, lookupJ_setJ_ne res k x v hx]

theorem numAt_of_none (res : JObj) (k : String) (h : lookupJ res k = none) :
    numAt res k = 0 := by
  simp [numAt, h]

theorem numAt_not_mem (res : JObj) (k : String) (h : k ∉ keysO res) :
    numAt res k = 0 :=
  numAt_of_none res k ((lookupJ_eq_none_iff res k).mpr h)

theorem numAt_cons_self (k : String) (n : Int) (rest : JObj) :
    numAt (.cons k (.num n) rest) k = n := by
  simp [numAt, lookupJ]

theorem numAt_cons_ne (k' x : String) (v : JVal) (rest : JObj) (hx : k' ≠ x) :
    numAt (.cons k' v rest) x = numAt rest x := by
  simp [numAt, lookupJ, hx]

theorem jsMergeStep_posnum :
    ∀ (pending : JObj) (f : Nat) (res whole : JobResult),
      jsizeO pending ≤ f → allPosB res = true → allPosB pending = true →
      (keysO pending).Nodup → (keysO res).Nodup →
      ∃ r, jsMergeStep f res whole pending = .ok r ∧ allPosB r = true ∧
        (keysO r).Nodup ∧ ∀ x, numAt r x = numAt res x + numAt pending x
  | .nil, f, res, whole, hfuel, hres, _, _, hnres => by
    cases f with
    | zero => exact absurd (le_trans (jsizeO_pos .nil) hfuel) (by omega)
    | succ fn =>
      refine ⟨res, rfl, hres, hnres, fun x => ?_⟩
      simp [numAt, lookupJ]
  | .cons k' nv' rest, f, res, whole, hfuel, hres, hpend, hnodup, hnres => by
    cases f with
    | zero => exact absurd (le_trans (jsizeO_pos _) hfuel) (by omega)
    | succ fn =>
      simp only [allPosB, Bool.and_eq_true] at hpend
      obtain ⟨n, hn_eq, hn_pos⟩ := isPosNum_elim nv' hpend.1
      subst hn_eq
      simp only [keysO, List.nodup_cons] at hnodup
      have hfuel' : jsizeO rest ≤ fn := by
        simp only [jsizeO, jsizeV] at hfuel
        omega
      have hposv : isPosNum (JVal.num n) = true := by
        simp [isPosNum]
        omega
      cases hl : lookupJ res k' with
      | none =>
        have hbr : mergeBranch res whole k' (.num n)
            (fun tfs fs => jsMergeStep fn tfs fs fs) = .ok (setJ res k' (.num n)) := by
          simp [mergeBranch, hl]
        have hmemres : k' ∉ keysO res := (lookupJ_eq_none_iff res k').mp hl
        have hres1 : allPosB (setJ res k' (.num n)) = true :=
          allPosB_setJ res k' _ hres hposv
        have hnres1 : (keysO (setJ res k' (.num n))).Nodup := by
          rw [keysO_setJ_not_mem res k' _ hmemres]
          simp [List.nodup_append, hnres, hmemres]
        obtain ⟨r, hr, h1, h2, h3⟩ :=
          jsMergeStep_posnum rest fn (setJ res k' (.num n)) whole hfuel' hres1 hpend.2
            hnodup.2 hnres1
        refine ⟨r, ?_, h1, h2, fun x => ?_⟩
        · simp only [jsMergeStep]
          rw [hbr]
          exact hr
        · rw [h3 x]
          by_cases hx : x = k'
          · subst hx
            rw [numAt_setJ_num, numAt_of_none res x hl, numAt_cons_self,
              numAt_not_mem rest x hnodup.1]
            omega
          · rw [numAt_setJ_ne res k' x _ hx, numAt_cons_ne k' x _ rest (Ne.symm hx)]
      | some tv =>
        obtain ⟨m, hm_eq, hm_pos⟩ := isPosNum_elim tv (lookupJ_isPos res k' tv hres hl)
        subst hm_eq
        have hbr : mergeBranch res whole k' (.num n)
            (fun tfs fs => jsMergeStep fn tfs fs fs) = .ok (setJ res k' (.num (m + n))) := by
          have ht : truthy (JVal.num m) = true := by
            simp [truthy]
            omega
          have hn0 : (n != 0) = true := by
            simp
            omega
          simp [mergeBranch, hl, ht, hn0, jsAdd]
        have hmemres : k' ∈ keysO res := by
          by_contra hmem
          rw [(lookupJ_eq_none_iff res k').mpr hmem] at hl
          exact absurd hl (fun hh => nomatch hh)
        have hres1 : allPosB (setJ res k' (.num (m + n))) = true :=
          allPosB_setJ res k' _ hres (by simp [isPosNum]; omega)
        have hnres1 : (keysO (setJ res k' (.num (m + n)))).Nodup := by
          rw [keysO_setJ_mem res k' _ hmemres]
          exact hnres
        obtain ⟨r, hr, h1, h2, h3⟩ :=
          jsMergeStep_posnum rest fn (setJ res k' (.num (m + n))) whole hfuel' hres1 hpend.2
            hnodup.2 hnres1
        refine ⟨r, ?_, h1, h2, fun x => ?_⟩
        · simp only [jsMergeStep]
          rw [hbr]
          exact hr
        · rw [h3 x]
          by_cases hx : x = k'
          · subst hx
            rw [numAt_setJ_num, numAt_cons_self, numAt_not_mem rest x hnodup.1]
            simp [numAt, hl]
          · rw [numAt_setJ_ne res k' x _ hx, numAt_cons_ne k' x _ rest (Ne.symm hx)]

/-- On aggregates whose bindings are all strictly positive numbers,
`mergeResult` succeeds and acts as pointwise addition of the numeric values,
preserving positivity and key uniqueness. -/
theorem mergeResult_posnum (a b : JobResult)
    (ha : allPosB a = true) (hb : allPosB b = true)
    (hna : (keysO a).Nodup) (hnb : (keysO b).Nodup) :
    ∃ r, mergeResult? a b = some r ∧ allPosB r = true ∧ (keysO r).Nodup ∧
      ∀ x, numAt r x = numAt a x + numAt b x := by
  obtain ⟨r, hr, h1, h2, h3⟩ := jsMergeStep_posnum b (jsizeO b) a b le_rfl ha hb hnb hna
  refine ⟨r, ?_, h1, h2, h3⟩
  unfold mergeResult?
  rw [hr]

/-- C7 (amended): for every key of the incoming aggregate, a successful
`mergeResult(target, incoming)` call leaves the target's value at that key
equal to the per-key rule `specMergeValue`: key absent or bound to a falsy
value in the target → copy the incoming value; incoming nonzero number →
JS `+=` onto the target value; incoming array → append to the target array
(a thrown error, not an overwrite, when the target value is truthy and not
an array); incoming non-empty object → recursive merge when the target
value is an object (a thrown error when it is a truthy primitive), and an
incoming empty object keeps the target value; incoming falsy value (zero
number or empty string) → the target value is replaced by the **whole**
incoming aggregate, not by the incoming value; an incoming non-empty
string over a truthy target value is silently discarded.  No diagnostic is
surfaced in any case.  (The original claim's "both numeric → add" and
"type mismatch → overwrite with the incoming value plus a diagnostic" are
refuted at `mergeResult_overwrite_refuted`.) -/
theorem mergeResult_per_key_rule (res newR out : JobResult) (k : String) (nv : JVal)
    (hnodup : (keysO newR).Nodup) (hmem : lookupJ newR k = some nv)
    (hok : mergeResult? res newR = some out) :
    lookupJ out k = specMergeValue newR (lookupJ res k) nv := by
  unfold mergeResult? at hok
  cases hstep : jsMergeStep (jsizeO newR) res newR newR with
  | ok r =>
    rw [hstep] at hok
    injection hok with h
    rw [← h]
    exact jsMergeStep_per_key newR (jsizeO newR) res newR r k nv le_rfl hnodup hmem hstep
  | thrown =>
    rw [hstep] at hok
    exact absurd hok (fun hh => nomatch hh)
  | fuelOut =>
    rw [hstep] at hok
    exact absurd hok (fun hh => nomatch hh)

theorem mergeResult_per_key_rule_witness :
    lookupJ (.cons "a" (.num 3) .nil) "a"
      = specMergeValue (.cons "a" (.num 2) .nil)
          (lookupJ (.cons "a" (.num 1) .nil) "a") (.num 2) :=
  mergeResult_per_key_rule (.cons "a" (.num 1) .nil) (.cons "a" (.num 2) .nil)
    (.cons "a" (.num 3) .nil) "a" (.num 2) (by decide) rfl rfl

/-- C7 counterexample: merging `{k: 0}` into `{k: 1}` — both values
numeric — does not add them (which would give `1`); instead, because the
incoming value `0` is falsy, `result[key] = newResult` (job.ts:707) binds
the key to the **whole** incoming aggregate, and `mergeResult` contains no
diagnostic at all. -/
theorem mergeResult_overwrite_refuted :
    mergeResult? (.cons "k" (.num 1) .nil) (.cons "k" (.num 0) .nil)
      = some (.cons "k" (.obj (.cons "k" (.num 0) .nil)) .nil) ∧
    JVal.obj (.cons "k" (.num 0) .nil) ≠ JVal.num (1 + 0) :=
  ⟨rfl, fun hh => nomatch hh⟩

/-- C8 (amended): restricted to aggregates all of whose bindings are
strictly positive (hence truthy) numbers, `mergeResult` acts per key as
addition of the values, so it is associative and commutative per key:
`merge(merge(a,b),c)` and `merge(a,merge(b,c))` carry the same numeric
value at every key, as do `merge(a,b)` and `merge(b,a)`.  (With zero — a
falsy numeric value — among the values the original claim fails, see
`mergeResult_comm_refuted`.) -/
theorem mergeResult_assoc_comm_posnum (a b c : JobResult)
    (ha : allPosB a = true) (hb : allPosB b = true) (hc : allPosB c = true)
    (hna : (keysO a).Nodup) (hnb : (keysO b).Nodup) (hnc : (keysO c).Nodup) :
    ∃ ab bc abc1 abc2 ba,
      mergeResult? a b = some ab ∧ mergeResult? b c = some bc ∧
      mergeResult? ab c = some abc1 ∧ mergeResult? a bc = some abc2 ∧
      mergeResult? b a = some ba ∧
      (∀ k, numAt abc1 k = numAt abc2 k) ∧ (∀ k, numAt ab k = numAt ba k) := by
  obtain ⟨ab, hab, hab1, hab2, hab3⟩ := mergeResult_posnum a b ha hb hna hnb
  obtain ⟨bc, hbc, hbc1, hbc2, hbc3⟩ := mergeResult_posnum b c hb hc hnb hnc
  obtain ⟨abc1, habc1, _, _, habc13⟩ := mergeResult_posnum ab c hab1 hc hab2 hnc
  obtain ⟨abc2, habc2, _, _, habc23⟩ := mergeResult_posnum a bc ha hbc1 hna hbc2
  obtain ⟨ba, hba, _, _, hba3⟩ := mergeResult_posnum b a hb ha hnb hna
  refine ⟨ab, bc, abc1, abc2, ba, hab, hbc, habc1, habc2, hba, fun k => ?_, fun k => ?_⟩
  · rw [habc13 k, habc23 k, hab3 k, hbc3 k]
    ring
  · rw [hab3 k, hba3 k]
    ring

theorem mergeResult_assoc_comm_posnum_witness :
    ∃ ab bc abc1 abc2 ba,
      mergeResult? (.cons "x" (.num 1) .nil) (.cons "x" (.num 2) .nil) = some ab ∧
      mergeResult? (.cons "x" (.num 2) .nil) (.cons "y" (.num 3) .nil) = some bc ∧
      mergeResult? ab (.cons "y" (.num 3) .nil) = some abc1 ∧
      mergeResult? (.cons "x" (.num 1) .nil) bc = some abc2 ∧
      mergeResult? (.cons "x" (.num 2) .nil) (.cons "x" (.num 1) .nil) = some ba ∧
      (∀ k, numAt abc1 k = numAt abc2 k) ∧ (∀ k, numAt ab k = numAt ba k) :=
  mergeResult_assoc_comm_posnum (.cons "x" (.num 1) .nil) (.cons "x" (.num 2) .nil)
    (.cons "y" (.num 3) .nil) (by decide) (by decide) (by decide)
    (by decide) (by decide) (by decide)

/-- C8 counterexample: with the numeric value `0` involved, `mergeResult`
is not commutative per key: merging `{n: 0}` into `{n: 1}` stores the whole
incoming aggregate (an object) under the key, while merging `{n: 1}` into
`{n: 0}` stores the number `1`. -/
theorem mergeResult_comm_refuted :
    mergeResult? (.cons "n" (.num 1) .nil) (.cons "n" (.num 0) .nil)
      = some (.cons "n" (.obj (.cons "n" (.num 0) .nil)) .nil) ∧
    mergeResult? (.cons "n" (.num 0) .nil) (.cons "n" (.num 1) .nil)
      = some (.cons "n" (.num 1) .nil) ∧
    JVal.obj (.cons "n" (.num 0) .nil) ≠ JVal.num 1 :=
  ⟨rfl, rfl, fun hh => nomatch hh⟩

/-- C9 (amended): an incoming string value does **not** follow
last-write-wins: when the target already binds the key to a truthy value,
`mergeResult` matches none of its branches for a non-empty incoming string
and leaves the target aggregate completely unchanged (first write wins);
the incoming string is stored only when the key is absent or falsy in the
target. -/
theorem mergeResult_string_first_write_wins (res : JobResult) (k s : String) (tv : JVal)
    (hl : lookupJ res k = some tv) (htv : truthy tv = true) (hs : s ≠ "") :
    mergeResult? res (.cons k (.str s) .nil) = some res := by
  have hstep : jsMergeStep (jsizeO (JObj.cons k (.str s) .nil)) res
      (JObj.cons k (.str s) .nil) (JObj.cons k (.str s) .nil) = .ok res := by
    have h3 : jsizeO (JObj.cons k (.str s) .nil) = 2 + 1 := rfl
    rw [h3]
    simp only [jsMergeStep]
    have hbr : mergeBranch res (JObj.cons k (.str s) .nil) k (.str s)
        (fun tfs fs => jsMergeStep 2 tfs fs fs) = .ok res := by
      simp [mergeBranch, hl, htv, hs]
    rw [hbr]
  unfold mergeResult?
  rw [hstep]

theorem mergeResult_string_first_write_wins_witness :
    mergeResult? (.cons "k" (.str "a") .nil) (.cons "k" (.str "b") .nil)
      = some (.cons "k" (.str "a") .nil) :=
  mergeResult_string_first_write_wins (.cons "k" (.str "a") .nil) "k" "b" (.str "a")
    rfl rfl (by decide)

/-- C9 counterexample: merging the string `"b"` over a key already bound to
the string `"a"` leaves `"a"` in place — the last write does **not** win. -/
theorem mergeResult_string_lww_refuted :
    mergeResult? (.cons "k" (.str "a") .nil) (.cons "k" (.str "b") .nil)
      = some (.cons "k" (.str "a") .nil) ∧
    JVal.str "a" ≠ JVal.str "b" := by
  refine ⟨rfl, fun hh => ?_⟩
  injection hh with h1
  exact absurd h1 (by decide)

/-! ## The fork orchestration (forkOneChild / forkChildren / the child runtime) -/

/-- Message codes sent from child to parent (`JobChildCode`, job.types). -/
inductive ChildCode : Type where
  | READY
  | ERROR
  | DONE
  | CUSTOM
  | FINISHED
  deriving DecidableEq, Repr

/-- Message codes sent from parent to child (`JobParentCode`, job.types). -/
inductive ParentCode : Type where
  | INIT
  | EXIT
  | PROCESS
  deriving DecidableEq, Repr

/-- A child→parent message: `{code, result?, logs?, data?}`.  `READY` and
`FINISHED` carry no stats, `DONE`/`ERROR` carry `createStatsObject()`
(job.ts:573-575, 590, 722-725).  Log entries are modelled by their message
text (ids and timestamps are ambient I/O). -/
structure ChildMsg (δ : Type) : Type where
  code : ChildCode
  result : Option JobResult
  logs : Option (List String)
  data : Option δ

/-- A parent→child message: `{code, initData?, itemsToProcess?}`
(job.ts:629-632, 651). -/
structure ParentMsg (α ι : Type) : Type where
  code : ParentCode
  initData : Option ι
  itemsToProcess : Option (List α)

/-- `itemsToProcess.slice(this.itemsOffset, this.itemsOffset + batchSize)`
(job.ts:650): the next claimed batch. -/
def claimNext (itemsToProcess : List α) (itemsOffset batchSize : Nat) : List α :=
  (itemsToProcess.drop itemsOffset).take batchSize

/-- The parent-side per-channel mutable state touched by `forkOneChild`'s
message handler: the **shared** `this.itemsOffset` (job.ts:80), the shared
stats (`this.result` / `this.logs`), the live-children table
(`this.children`, keyed by pid) and whether this orchestration promise has
been resolved through the `FINISHED` path (job.ts:661-669). -/
structure ParentState (α : Type) : Type where
  itemsOffset : Nat
  result : JobResult
  logs : List String
  children : List Nat
  resolved : Bool

/-- Which of the optional callbacks were configured, and `onIteration`'s
decimation factor (`everyNth`, `0` modelling `undefined` so that
`onIteration.everyNth || 1` applies, job.ts:645). -/
structure CallbackCfg : Type where
  hasOnError : Bool
  hasOnIteration : Bool
  everyNth : Nat
  hasOnChildReturn : Bool
  hasOnFinished : Bool

/-- Observable callback invocations of one parent handler run, in program
order. -/
inductive CbEvent : Type where
  | onError
  | onIteration
  | onChildReturn
  | onFinished
  deriving DecidableEq, Repr

/-- Everything one run of the parent's `message` handler produces: the new
state, the messages sent to this handler's child, and the callbacks
invoked, in order. -/
structure ParentStepOut (α ι : Type) : Type where
  state : ParentState α
  sends : List (ParentMsg α ι)
  callbacks : List CbEvent

/-- `addStatsFromChild` (job.ts:713-720), result half: merge
`message.result` into the shared result when present; `none` models the
merge throwing (which aborts the handler run). -/
def mergedStats (st : ParentState α) (msg : ChildMsg δ) : Option JobResult :=
  match msg.result with
  | none => some st.result
  | some r => mergeResult? st.result r

/-- The `childProcess.on('message', ...)` handler installed by
`forkOneChild` (job.ts:625-671), run atomically (the documented
precondition that no callback yields control between the offset read and
its advancement):

* `READY` → send `INIT{initData}`;
* `ERROR` → invoke `onError`;
* `READY`/`DONE`/`ERROR` → `addStatsFromChild` (merge `message.result` into
  the shared result if present — a merge throw aborts the handler —, append
  `message.logs`), invoke `onIteration` when configured and
  `itemsOffset % (everyNth || 1) == 0`, then claim
  `slice(itemsOffset, itemsOffset + batchSize)` and **unconditionally**
  send `PROCESS{items}`, advancing the shared offset by the claimed length;
* `DONE` → invoke `onChildReturn`;
* `FINISHED` → delete the child from `this.children`; when it was the last
  one, invoke `onFinished` and resolve the orchestration promise. -/
def parentHandleMessage (items : List α) (batchSize : Nat) (initData : ι)
    (cfg : CallbackCfg) (pid : Nat) (st : ParentState α) (msg : ChildMsg δ) :
    ParentStepOut α ι :=
  let s0 : List (ParentMsg α ι) :=
    if msg.code = .READY then [⟨.INIT, some initData, none⟩] else []
  let cb0 : List CbEvent :=
    if msg.code = .ERROR ∧ cfg.hasOnError then [.onError] else []
  if msg.code = .READY ∨ msg.code = .DONE ∨ msg.code = .ERROR then
    match mergedStats st msg with
    | none => ⟨st, s0, cb0⟩
    | some res' =>
      let logs' := st.logs ++ msg.logs.getD []
      let nth := if cfg.everyNth = 0 then 1 else cfg.everyNth
      let cb1 := cb0 ++
        (if cfg.hasOnIteration ∧ st.itemsOffset % nth = 0 then [.onIteration] else [])
      let batch := claimNext items st.itemsOffset batchSize
      let cb2 := cb1 ++ (if msg.code = .DONE ∧ cfg.hasOnChildReturn then [.onChildReturn] else [])
      ⟨{ st with
          itemsOffset := st.itemsOffset + batch.length
          result := res'
          logs := logs' },
        s0 ++ [⟨.PROCESS, none, some batch⟩], cb2⟩
  else if msg.code = .FINISHED then
    let children' := st.children.filter (· ≠ pid)
    if children'.isEmpty then
      ⟨{ st with children := children', resolved := true }, s0,
        cb0 ++ (if cfg.hasOnFinished then [.onFinished] else [])⟩
    else
      ⟨{ st with children := children' }, s0, cb0⟩
  else
    ⟨st, s0, cb0⟩

/-- The child-side state of `initChildMessageHandler` (job.ts:548-594):
`initData` (`none` models the initial `{}`), the stats accumulator
(`this.result` / `this.logs`), and whether the process has exited. -/
structure ChildState (ι : Type) : Type where
  initData : Option ι
  result : JobResult
  logs : List String
  exited : Bool

/-- One run of the child's `process.on('message', ...)` handler: the new
state and the replies sent.  `f` is the user's `processChildJob` (opaque;
modelled as not touching the stats accumulator):

* every message first runs `resetStatsObject()` (job.ts:557);
* `INIT` → store `message.initData || {}`;
* `PROCESS` with an empty (or missing) batch → send `FINISHED`, resolve and
  `exit(0)`;
* `PROCESS` with items → run `f`; on success send
  `DONE{...createStatsObject(), data}`; when `f` raises, `addError` and
  send `ERROR{...createStatsObject()}` — and crucially keep listening;
* `EXIT` → resolve and `exit(0)`.

A message arriving after the process exited is dropped. -/
def childHandleMessage (f : Option ι → List α → Except String δ)
    (st : ChildState ι) (msg : ParentMsg α ι) :
    ChildState ι × List (ChildMsg δ) :=
  if st.exited then (st, [])
  else
    let st := { st with result := JObj.nil, logs := ([] : List String) }
    match msg.code with
    | .INIT => ({ st with initData := msg.initData }, [])
    | .PROCESS =>
      let itemsGot := msg.itemsToProcess.getD []
      if itemsGot.isEmpty then
        ({ st with exited := true }, [⟨.FINISHED, none, none, none⟩])
      else
        match f st.initData itemsGot with
        | .ok d => (st, [⟨.DONE, some st.result, some st.logs, some d⟩])
        | .error e =>
          let st' := { st with logs := st.logs ++ [e] }
          (st', [⟨.ERROR, some st'.result, some st'.logs, none⟩])
    | .EXIT => ({ st with exited := true }, [])

/-! ## Shared-offset pool model

Several channels of one `forkChildren` invocation share the single
instance field `this.itemsOffset` (job.ts:80).  Under the documented
precondition that no callback yields control between the offset read
(job.ts:650) and its advancement (job.ts:652), each claim is atomic, so a
whole run is a sequence of atomic claims in some scheduler-chosen order.
`PoolState` records the shared offset, the global dispatch trace (every
`PROCESS` payload, in send order) and, per child, whether it has received
an empty batch (after which it replies `FINISHED` and never triggers
another claim). -/

structure PoolState (α : Type) : Type where
  itemsOffset : Nat
  trace : List (List α)
  finishedFlags : List Bool
  deriving DecidableEq, Repr

/-- The pool at orchestration start: `c` children, none finished, offset as
left by the instance (0 for a fresh `SimpleJob`, job.ts:80). -/
def poolInit (c startOffset : Nat) : PoolState α :=
  ⟨startOffset, [], List.replicate c false⟩

/-- Child `i` becomes idle (its `READY`/`DONE`/`ERROR` arrived) and the
handler runs its dispatch step atomically: claim
`slice(itemsOffset, itemsOffset + bs)`, send it (it lands in the trace even
when empty — job.ts:651 is unconditional) and advance the shared offset by
the claimed length.  A child whose batch was empty replies `FINISHED` and
is out of the game; scheduling it (or an out-of-range index) is a no-op. -/
def poolStep (items : List α) (bs : Nat) (st : PoolState α) (i : Nat) : PoolState α :=
  if st.finishedFlags.getD i true then st
  else
    let batch := claimNext items st.itemsOffset bs
    ⟨st.itemsOffset + batch.length,
      st.trace ++ [batch],
      st.finishedFlags.set i batch.isEmpty⟩

/-- Run the pool under a schedule: the order in which the single-threaded
event loop delivers idle notifications. -/
def poolRun (items : List α) (bs : Nat) (st : PoolState α) (sched : List Nat) : PoolState α :=
  sched.foldl (poolStep items bs) st

/-- Every child of the pool has received its empty batch (and hence sent
`FINISHED`): the whole orchestration is complete. -/
def allFinished (st : PoolState α) : Bool :=
  st.finishedFlags.all (· = true)

/-! ## Promise settlement (forkOneChild's exit/error listeners, Promise.all) -/

/-- Why an orchestration promise rejected: a non-zero exit code
(job.ts:677-679) or a process-level `error` event (job.ts:673-675). -/
inductive RejectReason : Type where
  | exitCode (code : Int)
  | procError (e : String)
  deriving DecidableEq, Repr

/-- Settlement state of one `forkOneChild` promise.  A settled promise
never changes again (JS semantics: `resolve`/`reject` on a settled promise
are no-ops). -/
inductive PromiseState : Type where
  | pending
  | resolvedU
  | rejected (r : RejectReason)
  deriving DecidableEq, Repr

/-- `childProcess.on('error', (error) => reject(error))` (job.ts:673-675). -/
def onErrorEvent (e : String) : PromiseState → PromiseState
  | .pending => .rejected (.procError e)
  | p => p

/-- `childProcess.on('exit', (code) => { if (code) reject(code); else
resolve(undefined); })` (job.ts:677-682) — note the JS truthiness test:
any non-zero code rejects, zero resolves. -/
def onExitEvent (code : Int) : PromiseState → PromiseState
  | .pending => if code != 0 then .rejected (.exitCode code) else .resolvedU
  | p => p

def isRejected : PromiseState → Bool
  | .rejected _ => true
  | _ => false

/-- `Promise.all` over the per-channel promises (job.ts:688-692): rejected
as soon as any channel's promise is rejected (with that reason), resolved
when all are resolved, otherwise still pending. -/
def promiseAll (ps : List PromiseState) : PromiseState :=
  match ps.find? isRejected with
  | some p => p
  | none => if ps.all (· = .resolvedU) then .resolvedU else .pending

/-- `forkOptions.childrenNumber || Math.min(os.cpus().length,
itemsToProcess.length)` (job.ts:686-687): the number of workers
`forkChildren` spawns.  `some 0` falls back to the default because `0` is
falsy under `||`. -/
def computedChildrenNumber (explicitChildren : Option Nat) (cpus itemCount : Nat) : Nat :=
  match explicitChildren with
  | some n => if n != 0 then n else min cpus itemCount
  | none => min cpus itemCount

/-! ## Pool run invariant -/

theorem take_length_claimNext (items : List α) (off bs : Nat) :
    (items.drop off).take (claimNext items off bs).length = claimNext items off bs := by
  unfold claimNext
  rw [List.length_take]
  rcases le_total bs (items.drop off).length with h | h
  · rw [Nat.min_eq_left h]
  · rw [Nat.min_eq_right h, List.take_length, List.take_all_of_le h]

theorem length_claimNext (items : List α) (off bs : Nat) :
    (claimNext items off bs).length = min bs (items.length - off) := by
  simp [claimNext]

/-- The run invariant of a pool started at offset `o₀`: the offset only
grows (and never beyond `max o₀ items.length`), the concatenated dispatch
trace is exactly the slice of `items` between `o₀` and the current offset,
and once any child has finished the offset has reached the end. -/
def PoolInv (items : List α) (o₀ : Nat) (st : PoolState α) : Prop :=
  o₀ ≤ st.itemsOffset ∧
  st.itemsOffset ≤ max o₀ items.length ∧
  st.trace.flatten = (items.drop o₀).take (st.itemsOffset - o₀) ∧
  ((∃ fl ∈ st.finishedFlags, fl = true) → items.length ≤ st.itemsOffset)

theorem poolStep_inv (items : List α) (bs : Nat) (hbs : 1 ≤ bs) (o₀ : Nat)
    (st : PoolState α) (i : Nat) (h : PoolInv items o₀ st) :
    PoolInv items o₀ (poolStep items bs st i) := by
  obtain ⟨h1, h2, h3, h4⟩ := h
  unfold poolStep
  split
  · exact ⟨h1, h2, h3, h4⟩
  · have hlen : (claimNext items st.itemsOffset bs).length
        = min bs (items.length - st.itemsOffset) := length_claimNext items _ bs
    refine ⟨?_, ?_, ?_, ?_⟩
    · show o₀ ≤ st.itemsOffset + (claimNext items st.itemsOffset bs).length
      omega
    · show st.itemsOffset + (claimNext items st.itemsOffset bs).length
        ≤ max o₀ items.length
      have hM : items.length ≤ max o₀ items.length := le_max_right _ _
      omega
    · show (st.trace ++ [claimNext items st.itemsOffset bs]).flatten
        = (items.drop o₀).take
            (st.itemsOffset + (claimNext items st.itemsOffset bs).length - o₀)
      rw [List.flatten_append, h3]
      have harith : st.itemsOffset + (claimNext items st.itemsOffset bs).length - o₀
          = (st.itemsOffset - o₀) + (claimNext items st.itemsOffset bs).length := by
        omega
      rw [harith, List.take_add]
      simp only [List.flatten_cons, List.flatten_nil, List.append_nil]
      congr 1
      rw [List.drop_drop, show o₀ + (st.itemsOffset - o₀) = st.itemsOffset from by omega]
      exact (take_length_claimNext items st.itemsOffset bs).symm
    · show (∃ fl ∈ st.finishedFlags.set i (claimNext items st.itemsOffset bs).isEmpty,
          fl = true) →
        items.length ≤ st.itemsOffset + (claimNext items st.itemsOffset bs).length
      intro hex
      obtain ⟨fl, hmem, hfl⟩ := hex
      rcases List.mem_or_eq_of_mem_set hmem with hmem' | heq
      · exact le_trans (h4 ⟨fl, hmem', hfl⟩) (Nat.le_add_right _ _)
      · have hempty : claimNext items st.itemsOffset bs = [] := by
          rw [heq] at hfl
          exact List.isEmpty_iff.mp hfl
        have hdrop : items.length ≤ st.itemsOffset := by
          unfold claimNext at hempty
          rcases List.take_eq_nil_iff.mp hempty with hh | hh
          · omega
          · exact List.drop_eq_nil_iff_le.mp hh
        omega

theorem poolRun_inv (items : List α) (bs : Nat) (hbs : 1 ≤ bs) (o₀ : Nat)
    (st : PoolState α) (sched : List Nat) (h : PoolInv items o₀ st) :
    PoolInv items o₀ (poolRun items bs st sched) := by
  induction sched generalizing st with
  | nil => exact h
  | cons i rest ih => exact ih (poolStep items bs st i) (poolStep_inv items bs hbs o₀ st i h)

theorem poolInit_inv (items : List α) (o₀ c : Nat) :
    PoolInv items o₀ (poolInit c o₀ : PoolState α) := by
  refine ⟨le_rfl, le_max_left _ _, by simp [poolInit], ?_⟩
  intro hex
  obtain ⟨fl, hmem, hfl⟩ := hex
  simp only [poolInit, List.mem_replicate] at hmem
  rw [hmem.2] at hfl
  exact absurd hfl (by decide)

theorem poolStep_offset_le (items : List α) (bs : Nat) (st : PoolState α) (i : Nat) :
    st.itemsOffset ≤ (poolStep items bs st i).itemsOffset := by
  unfold poolStep
  split
  · exact le_rfl
  · exact Nat.le_add_right _ _

theorem poolRun_offset_mono (items : List α) (bs : Nat) :
    ∀ (sched : List Nat) (st : PoolState α),
      st.itemsOffset ≤ (poolRun items bs st sched).itemsOffset := by
  intro sched
  induction sched with
  | nil => exact fun st => le_rfl
  | cons i rest ih =>
    intro st
    exact le_trans (poolStep_offset_le items bs st i) (ih (poolStep items bs st i))

theorem poolStep_flags_length (items : List α) (bs : Nat) (st : PoolState α) (i : Nat) :
    (poolStep items bs st i).finishedFlags.length = st.finishedFlags.length := by
  unfold poolStep
  split
  · rfl
  · simp [List.length_set]

theorem poolRun_flags_length (items : List α) (bs : Nat) :
    ∀ (sched : List Nat) (st : PoolState α),
      (poolRun items bs st sched).finishedFlags.length = st.finishedFlags.length := by
  intro sched
  induction sched with
  | nil => exact fun st => rfl
  | cons i rest ih =>
    intro st
    rw [show poolRun items bs st (i :: rest) = poolRun items bs (poolStep items bs st i) rest
      from rfl, ih (poolStep items bs st i), poolStep_flags_length]

/-- A complete run (every child finished) from start offset `o₀` ends with
the offset at `max o₀ items.length` and has dispatched exactly
`items.drop o₀`, in order. -/
theorem poolRun_finished_state (items : List α) (bs o₀ c : Nat) (sched : List Nat)
    (hbs : 1 ≤ bs) (hc : 1 ≤ c)
    (hfin : allFinished (poolRun items bs (poolInit c o₀) sched) = true) :
    (poolRun items bs (poolInit c o₀) sched).itemsOffset = max o₀ items.length ∧
    (poolRun items bs (poolInit c o₀) sched).trace.flatten = items.drop o₀ := by
  obtain ⟨h1, h2, h3, h4⟩ :=
    poolRun_inv items bs hbs o₀ (poolInit c o₀) sched (poolInit_inv items o₀ c)
  have hlenf : (poolRun items bs (poolInit c o₀) sched).finishedFlags.length = c := by
    rw [poolRun_flags_length]
    simp [poolInit]
  have hne : (poolRun items bs (poolInit c o₀) sched).finishedFlags ≠ [] := by
    intro hnil
    rw [hnil] at hlenf
    simp at hlenf
    omega
  obtain ⟨fl, hflmem⟩ := List.exists_mem_of_ne_nil _ hne
  have hfltrue : fl = true := by
    have := List.all_eq_true.mp hfin fl hflmem
    simpa using this
  have hoff : items.length ≤ (poolRun items bs (poolInit c o₀) sched).itemsOffset :=
    h4 ⟨fl, hflmem, hfltrue⟩
  refine ⟨by omega, ?_⟩
  rw [h3]
  have hle : (items.drop o₀).length ≤ (poolRun items bs (poolInit c o₀) sched).itemsOffset - o₀ := by
    rw [List.length_drop]
    omega
  exact List.take_all_of_le hle

/-- C1: with the batch size positive (job.ts defaults it to 1) and any
`childrenNumber` between 1 and the sequence length, under the modelled
precondition that each handler's claim step runs atomically (no callback
yields between the offset read at job.ts:650 and its advancement at
job.ts:652), every complete run — whatever order the scheduler lets the
children claim in — dispatches exactly the work-item sequence: the
concatenation of all `PROCESS` payloads equals the sequence, so no item is
duplicated and none is omitted. -/
theorem forkChildren_dispatches_each_item_once (items : List α) (bs c : Nat)
    (sched : List Nat) (hne : items ≠ []) (hbs : 1 ≤ bs) (hc1 : 1 ≤ c)
    (hc2 : c ≤ items.length)
    (hfin : allFinished (poolRun items bs (poolInit c 0) sched) = true) :
    (poolRun items bs (poolInit c 0) sched).trace.flatten = items := by
  have h := (poolRun_finished_state items bs 0 c sched hbs hc1 hfin).2
  simpa using h

theorem forkChildren_dispatches_each_item_once_witness :
    (poolRun [1, 2, 3, 4, 5] 2 (poolInit 2 0) [0, 1, 0, 1, 0]).trace.flatten
      = [1, 2, 3, 4, 5] :=
  forkChildren_dispatches_each_item_once [1, 2, 3, 4, 5] 2 2 [0, 1, 0, 1, 0]
    (by decide) (by decide) (by decide) (by decide) (by decide)

/-- C10: the shared cursor `this.itemsOffset` (job.ts:80) is an instance
field that `forkOneChild` only ever advances (job.ts:652) and that no
operation resets; a first complete orchestration over `items` leaves it at
`items.length`, so a second `forkChildren` on the same instance starts
claiming at that offset: it dispatches exactly `items2.drop items.length`
— the items at earlier positions of the new sequence are never dispatched
— and the offset never decreases under any run. -/
theorem itemsOffset_never_reset (items items2 : List α) (bs c c2 : Nat)
    (s1 s2 : List Nat) (hbs : 1 ≤ bs) (hc : 1 ≤ c) (hc2 : 1 ≤ c2)
    (h1 : allFinished (poolRun items bs (poolInit c 0) s1) = true)
    (h2 : allFinished (poolRun items2 bs
      (poolInit c2 ((poolRun items bs (poolInit c 0) s1).itemsOffset)) s2) = true) :
    (poolRun items bs (poolInit c 0) s1).itemsOffset = items.length ∧
    (poolRun items2 bs
      (poolInit c2 ((poolRun items bs (poolInit c 0) s1).itemsOffset)) s2).trace.flatten
      = items2.drop items.length ∧
    ∀ (st : PoolState α) (sched : List Nat),
      st.itemsOffset ≤ (poolRun items2 bs st sched).itemsOffset := by
  have hrun1 := poolRun_finished_state items bs 0 c s1 hbs hc h1
  have hoff1 : (poolRun items bs (poolInit c 0) s1).itemsOffset = items.length := by
    have := hrun1.1
    simpa using this
  have hrun2 := poolRun_finished_state items2 bs
    ((poolRun items bs (poolInit c 0) s1).itemsOffset) c2 s2 hbs hc2 h2
  refine ⟨hoff1, ?_, fun st sched => poolRun_offset_mono items2 bs sched st⟩
  rw [hrun2.2, hoff1]

theorem itemsOffset_never_reset_witness :
    (poolRun [10, 20] 1 (poolInit 1 0) [0, 0, 0]).itemsOffset = 2 ∧
    (poolRun [1, 2, 3] 1
      (poolInit 1 ((poolRun [10, 20] 1 (poolInit 1 0) [0, 0, 0]).itemsOffset))
      [0, 0]).trace.flatten = [3] :=
  have h := itemsOffset_never_reset [10, 20] [1, 2, 3] 1 1 1 [0, 0, 0] [0, 0]
    (by decide) (by decide) (by decide) (by decide) (by decide)
  ⟨h.1, h.2.1⟩

/-! ## Fail-fast rejection (C2) and empty-sequence orchestration (C6) -/

theorem find_rejected_unique :
    ∀ (ps : List PromiseState) (i : Nat) (hi : i < ps.length) (r : RejectReason),
      ps.get ⟨i, hi⟩ = .rejected r →
      (∀ j (hj : j < ps.length), j ≠ i → isRejected (ps.get ⟨j, hj⟩) = false) →
      ps.find? isRejected = some (.rejected r)
  | [], i, hi, _, _, _ => absurd hi (by simp)
  | p :: rest, i, hi, r, hri, hothers => by
    cases i with
    | zero =>
      have hp : p = .rejected r := hri
      subst hp
      simp [List.find?_cons, isRejected]
    | succ i' =>
      have hp : isRejected p = false := hothers 0 (by omega) (by omega)
      have hri' : rest.get ⟨i', by simpa using Nat.lt_of_succ_lt_succ hi⟩ = .rejected r := hri
      have hothers' : ∀ j (hj : j < rest.length), j ≠ i' →
          isRejected (rest.get ⟨j, hj⟩) = false := by
        intro j hj hne
        exact hothers (j + 1) (by simpa using Nat.succ_lt_succ hj) (by omega)
      rw [List.find?_cons, hp]
      exact find_rejected_unique rest i' _ r hri' hothers'

/-- C2: a process-level failure is fail-fast.  A channel whose promise is
still pending moves to rejection when its process raises an `error` event
(job.ts:673-675, with that error) or exits with a non-zero code
(job.ts:677-682, with that code); and the `Promise.all` returned by
`forkChildren` (job.ts:688-692) is rejected with exactly that reason as
soon as any one channel is rejected, whatever the state of every other
(healthy) channel. -/
theorem channel_crash_rejects_orchestration (code : Int) (e : String)
    (ps : List PromiseState) (i : Nat) (r : RejectReason)
    (hcode : code ≠ 0) (hi : i < ps.length) (hri : ps.get ⟨i, hi⟩ = .rejected r)
    (hothers : ∀ j (hj : j < ps.length), j ≠ i → isRejected (ps.get ⟨j, hj⟩) = false) :
    onExitEvent code .pending = .rejected (.exitCode code) ∧
    onErrorEvent e .pending = .rejected (.procError e) ∧
    promiseAll ps = .rejected r := by
  refine ⟨?_, rfl, ?_⟩
  · simp [onExitEvent, hcode]
  · unfold promiseAll
    rw [find_rejected_unique ps i hi r hri hothers]

theorem channel_crash_rejects_orchestration_witness :
    onExitEvent 1 .pending = .rejected (.exitCode 1) ∧
    onErrorEvent "spawn failure" .pending = .rejected (.procError "spawn failure") ∧
    promiseAll [.resolvedU, .rejected (.exitCode 1), .pending]
      = .rejected (.exitCode 1) :=
  channel_crash_rejects_orchestration 1 "spawn failure"
    [.resolvedU, .rejected (.exitCode 1), .pending] 1 (.exitCode 1)
    (by decide) (by decide) (by decide) (by decide)

/-- C6 (amended): for an empty work-item sequence, **provided
`childrenNumber` is not explicitly configured to a non-zero value**, the
computed worker count `min(os.cpus().length, 0)` is `0`, so zero channels
are spawned and the `Promise.all` over no promises resolves immediately.
(An explicitly configured `childrenNumber ≥ 1` spawns that many workers
even on an empty sequence — `forkChildren_empty_spawns_refuted`.) -/
theorem forkChildren_empty_resolves (cpus : Nat) (explicitChildren : Option Nat)
    (hdef : explicitChildren = none ∨ explicitChildren = some 0) :
    computedChildrenNumber explicitChildren cpus (List.length ([] : List α)) = 0 ∧
    promiseAll (List.replicate
      (computedChildrenNumber explicitChildren cpus (List.length ([] : List α)))
      .pending) = .resolvedU := by
  have h0 : computedChildrenNumber explicitChildren cpus 0 = 0 := by
    rcases hdef with h | h <;> subst h <;> simp [computedChildrenNumber]
  constructor
  · simpa using h0
  · rw [show List.length ([] : List α) = 0 from rfl, h0]
    rfl

theorem forkChildren_empty_resolves_witness :
    computedChildrenNumber none 8 (List.length ([] : List Nat)) = 0 ∧
    promiseAll (List.replicate
      (computedChildrenNumber none 8 (List.length ([] : List Nat)))
      .pending) = .resolvedU :=
  forkChildren_empty_resolves 8 none (Or.inl rfl)

/-- C6 counterexample: with `childrenNumber` explicitly configured as `1`
and an empty work-item sequence, `forkChildren` computes a worker count of
`1` — one process is forked, not zero. -/
theorem forkChildren_empty_spawns_refuted :
    computedChildrenNumber (some 1) 8 (List.length ([] : List Nat)) = 1 ∧
    (1 : Nat) ≠ 0 :=
  ⟨rfl, by decide⟩

/-! ## Empty-batch dispatch (C4) and error recovery (C5) -/

/-- C4 (amended): when the claimed batch is empty (the shared offset has
reached the end of the sequence), the dispatch step is **not** skipped:
job.ts:651 runs unconditionally, so the handler still sends a `PROCESS`
message whose payload is the empty batch.  Completion is nonetheless
child-driven exactly as the rest of the claim states: the dispatch branch
never resolves the orchestration promise locally (`resolved` is left
untouched; only the `FINISHED` branch resolves), and the child, upon
receiving the empty `PROCESS`, replies `FINISHED` on its own and exits
(job.ts:566-570). -/
theorem empty_claim_still_sends_process (items : List α) (bs : Nat) (initData : ι)
    (cfg : CallbackCfg) (pid : Nat) (st : ParentState α) (msg : ChildMsg δ)
    (f : Option ι → List α → Except String δ) (cs : ChildState ι)
    (hcode : msg.code = .READY ∨ msg.code = .DONE ∨ msg.code = .ERROR)
    (hend : items.length ≤ st.itemsOffset)
    (hmerge : (mergedStats st msg).isSome = true)
    (hcs : cs.exited = false) :
    (⟨.PROCESS, none, some ([] : List α)⟩ : ParentMsg α ι)
        ∈ (parentHandleMessage items bs initData cfg pid st msg).sends ∧
    (parentHandleMessage items bs initData cfg pid st msg).state.resolved
        = st.resolved ∧
    ((childHandleMessage f cs (⟨.PROCESS, none, some ([] : List α)⟩ : ParentMsg α ι)).2.map
        (fun m => m.code) = [.FINISHED]) ∧
    (childHandleMessage f cs (⟨.PROCESS, none, some ([] : List α)⟩ : ParentMsg α ι)).1.exited
        = true := by
  have hclaim : claimNext items st.itemsOffset bs = [] := by
    unfold claimNext
    rw [List.drop_eq_nil_iff_le.mpr hend, List.take_nil]
  obtain ⟨res', hres⟩ := Option.isSome_iff_exists.mp hmerge
  refine ⟨?_, ?_, ?_, ?_⟩
  · unfold parentHandleMessage
    rw [if_pos hcode, hres]
    simp [hclaim]
  · unfold parentHandleMessage
    rw [if_pos hcode, hres]
  · simp [childHandleMessage, hcs]
  · simp [childHandleMessage, hcs]

theorem empty_claim_still_sends_process_witness :
    (⟨.PROCESS, none, some ([] : List Nat)⟩ : ParentMsg Nat Unit)
        ∈ (parentHandleMessage [1] 1 () ⟨false, false, 0, false, false⟩ 7
            ⟨1, .nil, [], [7], false⟩
            (⟨.READY, none, none, none⟩ : ChildMsg Nat)).sends ∧
    (parentHandleMessage [1] 1 () ⟨false, false, 0, false, false⟩ 7
        ⟨1, .nil, [], [7], false⟩
        (⟨.READY, none, none, none⟩ : ChildMsg Nat)).state.resolved = false ∧
    ((childHandleMessage (fun _ _ => Except.ok 0) (⟨none, .nil, [], false⟩ : ChildState Unit)
        (⟨.PROCESS, none, some ([] : List Nat)⟩ : ParentMsg Nat Unit)).2.map
        (fun m => m.code) = [.FINISHED]) ∧
    (childHandleMessage (fun _ _ => Except.ok 0) (⟨none, .nil, [], false⟩ : ChildState Unit)
        (⟨.PROCESS, none, some ([] : List Nat)⟩ : ParentMsg Nat Unit)).1.exited = true :=
  empty_claim_still_sends_process [1] 1 () ⟨false, false, 0, false, false⟩ 7
    ⟨1, .nil, [], [7], false⟩ (⟨.READY, none, none, none⟩ : ChildMsg Nat)
    (fun _ _ => Except.ok 0) (⟨none, .nil, [], false⟩ : ChildState Unit)
    (Or.inl rfl) (by decide) rfl rfl

/-- C4 counterexample: a concrete handler run at the end of the sequence —
the claimed batch is empty, yet the `sends` list of the handler contains a
`PROCESS` message (with empty payload), where the claim asserts no
`PROCESS` message is sent for that claim. -/
theorem empty_claim_dispatch_refuted :
    claimNext [1] 1 1 = ([] : List Nat) ∧
    (parentHandleMessage [1] 1 () ⟨false, false, 0, false, false⟩ 7
        ⟨1, .nil, [], [7], false⟩
        (⟨.DONE, some .nil, some [], some (0 : Nat)⟩ : ChildMsg Nat)).sends
      = [⟨.PROCESS, none, some ([] : List Nat)⟩] ∧
    [(⟨.PROCESS, none, some ([] : List Nat)⟩ : ParentMsg Nat Unit)] ≠ [] :=
  ⟨rfl, rfl, by simp⟩

/-- C5: a batch on which the user function raises stops neither the worker
nor the pool.  Child side (job.ts:587-591): on a non-empty `PROCESS` whose
processing raises, the child sends exactly one message — `ERROR`, carrying
its stats (`result` and `logs` both present) — and its process does not
exit: it keeps listening.  Parent side (job.ts:635-653): on receiving that
`ERROR` the handler invokes `onError` first, then claims the next batch at
the shared offset and dispatches it over the same channel (the handler
belongs to this child's `childProcess`), advancing the offset past the
claimed batch. -/
theorem error_batch_does_not_stop_worker (f : Option ι → List α → Except String δ)
    (cs : ChildState ι) (batchItems : List α) (e : String)
    (items : List α) (bs : Nat) (initData : ι) (cfg : CallbackCfg) (pid : Nat)
    (st : ParentState α) (msg : ChildMsg δ)
    (hcs : cs.exited = false) (hne : batchItems ≠ [])
    (hfail : f cs.initData batchItems = .error e)
    (hcode : msg.code = .ERROR) (hOnErr : cfg.hasOnError = true)
    (hmerge : (mergedStats st msg).isSome = true) :
    ((childHandleMessage f cs (⟨.PROCESS, none, some batchItems⟩ : ParentMsg α ι)).2.map
        (fun m => m.code) = [.ERROR]) ∧
    (∀ m ∈ (childHandleMessage f cs (⟨.PROCESS, none, some batchItems⟩ : ParentMsg α ι)).2,
        m.result.isSome = true ∧ m.logs.isSome = true) ∧
    (childHandleMessage f cs (⟨.PROCESS, none, some batchItems⟩ : ParentMsg α ι)).1.exited
        = false ∧
    ((parentHandleMessage items bs initData cfg pid st msg).callbacks.head?
        = some .onError) ∧
    ((parentHandleMessage items bs initData cfg pid st msg).sends
        = [⟨.PROCESS, none, some (claimNext items st.itemsOffset bs)⟩]) ∧
    ((parentHandleMessage items bs initData cfg pid st msg).state.itemsOffset
        = st.itemsOffset + (claimNext items st.itemsOffset bs).length) := by
  obtain ⟨res', hres⟩ := Option.isSome_iff_exists.mp hmerge
  have hcodes : msg.code ≠ ChildCode.READY ∧ msg.code ≠ ChildCode.DONE := by
    rw [hcode]
    exact ⟨by simp, by simp⟩
  refine ⟨?_, ?_, ?_, ?_, ?_, ?_⟩
  · simp [childHandleMessage, hcs, hne, hfail]
  · simp [childHandleMessage, hcs, hne, hfail]
  · simp [childHandleMessage, hcs, hne, hfail, hcs]
  · unfold parentHandleMessage
    rw [if_pos (Or.inr (Or.inr hcode)), hres]
    simp [hcode, hOnErr]
  · unfold parentHandleMessage
    rw [if_pos (Or.inr (Or.inr hcode)), hres]
    simp [hcodes.1]
  · unfold parentHandleMessage
    rw [if_pos (Or.inr (Or.inr hcode)), hres]

theorem error_batch_does_not_stop_worker_witness :
    ((childHandleMessage (fun _ _ => (Except.error "user failure" : Except String Nat))
        (⟨none, .nil, [], false⟩ : ChildState Unit)
        (⟨.PROCESS, none, some [3, 4]⟩ : ParentMsg Nat Unit)).2.map
        (fun m => m.code) = [.ERROR]) ∧
    (∀ m ∈ (childHandleMessage (fun _ _ => (Except.error "user failure" : Except String Nat))
        (⟨none, .nil, [], false⟩ : ChildState Unit)
        (⟨.PROCESS, none, some [3, 4]⟩ : ParentMsg Nat Unit)).2,
        m.result.isSome = true ∧ m.logs.isSome = true) ∧
    (childHandleMessage (fun _ _ => (Except.error "user failure" : Except String Nat))
        (⟨none, .nil, [], false⟩ : ChildState Unit)
        (⟨.PROCESS, none, some [3, 4]⟩ : ParentMsg Nat Unit)).1.exited = false ∧
    ((parentHandleMessage [1, 2, 3, 4, 5] 2 () ⟨true, false, 0, false, false⟩ 7
        ⟨4, .nil, [], [7], false⟩
        (⟨.ERROR, none, some [], none⟩ : ChildMsg Nat)).callbacks.head?
        = some .onError) ∧
    ((parentHandleMessage [1, 2, 3, 4, 5] 2 () ⟨true, false, 0, false, false⟩ 7
        ⟨4, .nil, [], [7], false⟩
        (⟨.ERROR, none, some [], none⟩ : ChildMsg Nat)).sends
        = [⟨.PROCESS, none, some (claimNext [1, 2, 3, 4, 5] 4 2)⟩]) ∧
    ((parentHandleMessage [1, 2, 3, 4, 5] 2 () ⟨true, false, 0, false, false⟩ 7
        ⟨4, .nil, [], [7], false⟩
        (⟨.ERROR, none, some [], none⟩ : ChildMsg Nat)).state.itemsOffset
        = 4 + (claimNext [1, 2, 3, 4, 5] 4 2).length) :=
  error_batch_does_not_stop_worker (fun _ _ => (Except.error "user failure" : Except String Nat))
    (⟨none, .nil, [], false⟩ : ChildState Unit) [3, 4] "user failure"
    [1, 2, 3, 4, 5] 2 () ⟨true, false, 0, false, false⟩ 7
    ⟨4, .nil, [], [7], false⟩ (⟨.ERROR, none, some [], none⟩ : ChildMsg Nat)
    rfl (by decide) rfl rfl rfl rfl

/-! ## Single-child end-to-end scenario (C3) -/

/-- State of the deterministic single-channel exchange: parent and child
states, the queue of child→parent messages not yet handled, the `PROCESS`
payloads delivered to the child (in order), and the codes the child has
sent (in order). -/
structure SimState (α ι δ : Type) : Type where
  parent : ParentState α
  child : ChildState ι
  queue : List (ChildMsg δ)
  received : List (List α)
  childSent : List ChildCode

/-- Deliver one parent→child message: run the child handler (a message to
an exited process is dropped), record a received `PROCESS` payload and the
reply codes, and collect the replies. -/
def simDeliver (f : Option ι → List α → Except String δ)
    (acc : ChildState ι × List (List α) × List ChildCode × List (ChildMsg δ))
    (pm : ParentMsg α ι) :
    ChildState ι × List (List α) × List ChildCode × List (ChildMsg δ) :=
  if acc.1.exited then acc
  else
    let out := childHandleMessage f acc.1 pm
    (out.1,
      acc.2.1 ++ (if pm.code = .PROCESS then [pm.itemsToProcess.getD []] else []),
      acc.2.2.1 ++ out.2.map (fun m => m.code),
      acc.2.2.2 ++ out.2)

/-- One tick: the parent handles the oldest pending child message; every
message it sends is delivered to the child in order; the child's replies
are queued. -/
def simStep (f : Option ι → List α → Except String δ) (items : List α) (bs : Nat)
    (initData : ι) (cfg : CallbackCfg) (pid : Nat) (st : SimState α ι δ) :
    SimState α ι δ :=
  match st.queue with
  | [] => st
  | m :: rest =>
    let po := parentHandleMessage items bs initData cfg pid st.parent m
    let d := po.sends.foldl (simDeliver f) (st.child, st.received, st.childSent, [])
    ⟨po.state, d.1, rest ++ d.2.2.2, d.2.1, d.2.2.1⟩

def simRun (f : Option ι → List α → Except String δ) (items : List α) (bs : Nat)
    (initData : ι) (cfg : CallbackCfg) (pid : Nat) :
    Nat → SimState α ι δ → SimState α ι δ
  | 0, st => st
  | fuel + 1, st =>
    simRun f items bs initData cfg pid fuel (simStep f items bs initData cfg pid st)

/-- `startChild` (job.ts:530-541): handler installed, then the child
announces itself with `READY`; the parent starts with a fresh offset and
this child registered. -/
def simStart (pid : Nat) : SimState α ι δ :=
  ⟨⟨0, .nil, [], [pid], false⟩, ⟨none, .nil, [], false⟩,
    [⟨.READY, none, none, none⟩], [], [.READY]⟩

/-- C3: for work items `[1,2,3,4,5]` with `batchSize = 2` and a single
child, the child receives exactly the `PROCESS` batches `[1,2]`, `[3,4]`,
`[5]`, `[]` in that order, replies `READY, DONE, DONE, DONE` and then
`FINISHED` after the empty batch, and the orchestration resolves. -/
theorem single_child_batches_scenario :
    ((simRun (fun _ _ => Except.ok 0) [1, 2, 3, 4, 5] 2 ()
        ⟨false, false, 0, false, false⟩ 7 8 (simStart 7)) :
        SimState Nat Unit Nat).received = [[1, 2], [3, 4], [5], []] ∧
    ((simRun (fun _ _ => Except.ok 0) [1, 2, 3, 4, 5] 2 ()
        ⟨false, false, 0, false, false⟩ 7 8 (simStart 7)) :
        SimState Nat Unit Nat).childSent
      = [.READY, .DONE, .DONE, .DONE, .FINISHED] ∧
    ((simRun (fun _ _ => Except.ok 0) [1, 2, 3, 4, 5] 2 ()
        ⟨false, false, 0, false, false⟩ 7 8 (simStart 7)) :
        SimState Nat Unit Nat).parent.resolved = true :=
  ⟨rfl, rfl, rfl⟩

end SimpleJobModel
